import Mathlib

/-!
# Verification of the `kit` pomodoro session engine

Shallow embedding of `src/commands/pomo.rs`:

* `PomoSegment` and its duration (`PomoSegment::duration`, seconds from
  minutes; we also keep a milliseconds version since the countdown tick is
  100 ms).
* The segment sequence built in `Pomo::run` (lines 102–111):
  `intersperse(repeat(Work(time)).take(n_pomos), ShortBreak(break_))
     .chain(once(LongBreak(long_break)))`, then `.cycle()`.
* The `countdown` task (lines 341–370) as both a direct embedding of its
  `while` loop (`countdownTraceFrom`) and a small-step machine
  (`engineStep`) whose per-iteration inputs are the observed cancel and
  pause signals.
* The input mapping `TryFrom<Event> for PomoInput` (lines 177–224).
* The controller's per-event handling in `Pomo::run` (lines 134–161).
-/

namespace Kit

/-- `enum PomoSegment { Work(u64), ShortBreak(u64), LongBreak(u64) }`
(payload is minutes). -/
inductive PomoSegment where
  | Work (minutes : Nat)
  | ShortBreak (minutes : Nat)
  | LongBreak (minutes : Nat)
deriving DecidableEq, Repr

/-- `PomoSegment::duration`: `Duration::from_secs(minutes * 60)`, in seconds. -/
def PomoSegment.duration : PomoSegment → Nat
  | .Work m => m * 60
  | .ShortBreak m => m * 60
  | .LongBreak m => m * 60

/-- The same duration expressed in milliseconds, the granularity of the
100 ms countdown tick (`Duration` in the source is opaque; all durations
involved are whole milliseconds). -/
def PomoSegment.durationMs (s : PomoSegment) : Nat :=
  s.duration * 1000

/-- `Pomo::run` lines 102–106: one pass of the segment iterator,
`Itertools::intersperse(repeat(Work(time)).take(n_pomos), ShortBreak(break_))
   .chain(once(LongBreak(long_break)))`. -/
def segmentsOnce (time break_ long_break n_pomos : Nat) : List PomoSegment :=
  (List.replicate n_pomos (PomoSegment.Work time)).intersperse
      (PomoSegment.ShortBreak break_)
    ++ [PomoSegment.LongBreak long_break]

/-- The infinite cyclic sequence `segments_once.cycle()` of `Pomo::run`
line 111, read at index `i` by wrapping modulo the one-pass length.  The
list always ends in `LongBreak`, so it is nonempty and the default of
`getD` is never used. -/
def segmentAt (time break_ long_break n_pomos i : Nat) : PomoSegment :=
  (segmentsOnce time break_ long_break n_pomos).getD
    (i % (segmentsOnce time break_ long_break n_pomos).length)
    (PomoSegment.LongBreak long_break)

/-- The cycle as §4.1 of the spec words it: `[Work(work), ShortBreak(break)]`
repeated `pomos_per_cycle` times, with the trailing break after the last
Work omitted, then one `LongBreak(long_break)`. -/
def specCycle (time break_ long_break n_pomos : Nat) : List PomoSegment :=
  (List.flatten (List.replicate n_pomos
      [PomoSegment.Work time, PomoSegment.ShortBreak break_])).dropLast
    ++ [PomoSegment.LongBreak long_break]

lemma intersperse_replicate_concat (sep x : PomoSegment) :
    ∀ n : Nat, (List.replicate (n + 1) x).intersperse sep ++ [sep]
      = List.flatten (List.replicate (n + 1) [x, sep]) := by
  intro n
  induction n with
  | zero => simp [List.intersperse_singleton]
  | succ m ih =>
      simp only [List.replicate_succ, List.intersperse_cons_cons,
        List.flatten_cons, List.cons_append] at ih ⊢
      simp only [List.cons.injEq, true_and]
      exact ih

lemma segmentsOnce_eq_specCycle (w b l n : Nat) :
    segmentsOnce w b l n = specCycle w b l n := by
  cases n with
  | zero => simp [segmentsOnce, specCycle, List.intersperse]
  | succ m =>
      unfold segmentsOnce specCycle
      rw [← intersperse_replicate_concat (PomoSegment.ShortBreak b)
        (PomoSegment.Work w) m]
      rw [List.dropLast_concat]

lemma length_segmentsOnce (w b l n : Nat) (hn : 0 < n) :
    (segmentsOnce w b l n).length = 2 * n := by
  rw [segmentsOnce_eq_specCycle]
  unfold specCycle
  rw [List.length_append, List.length_dropLast, List.length_flatten]
  simp only [List.map_replicate, List.length_cons, List.length_nil,
    List.sum_replicate, smul_eq_mul, List.length_singleton]
  omega

lemma segmentsOnce_cons (w b l n : Nat) :
    segmentsOnce w b l (n + 2)
      = PomoSegment.Work w :: PomoSegment.ShortBreak b
          :: segmentsOnce w b l (n + 1) := by
  unfold segmentsOnce
  simp only [List.replicate_succ, List.intersperse_cons_cons, List.cons_append]

lemma getD_segmentsOnce (w b l : Nat) (dflt : PomoSegment) :
    ∀ n i : Nat, 0 < n → i < 2 * n →
    (segmentsOnce w b l n).getD i dflt
      = if i = 2 * n - 1 then PomoSegment.LongBreak l
        else if i % 2 = 0 then PomoSegment.Work w
        else PomoSegment.ShortBreak b := by
  intro n
  induction n with
  | zero => omega
  | succ m ih =>
      intro i _ hi
      cases m with
      | zero =>
          interval_cases i
          · rw [if_neg (by omega), if_pos (by omega)]
            simp [segmentsOnce, List.intersperse_singleton]
          · rw [if_pos (by omega)]
            simp [segmentsOnce, List.intersperse_singleton]
      | succ k =>
          rw [segmentsOnce_cons w b l k]
          match i with
          | 0 =>
              rw [if_neg (by omega), if_pos (by omega)]
              rfl
          | 1 =>
              rw [if_neg (by omega), if_neg (by omega)]
              rfl
          | (j + 2) =>
              have hj : j < 2 * (k + 1) := by omega
              simp only [List.getD_cons_succ]
              rw [ih j (by omega) hj]
              have he : (j = 2 * (k + 1) - 1) ↔ (j + 2 = 2 * (k + 1 + 1) - 1) := by
                omega
              have hmod : j % 2 = (j + 2) % 2 := by omega
              rw [hmod]
              by_cases hc : j = 2 * (k + 1) - 1
              · rw [if_pos hc, if_pos (he.mp hc)]
              · rw [if_neg hc, if_neg (fun h => hc (he.mpr h))]

lemma segmentAt_period (w b l n i : Nat) (hn : 0 < n) :
    segmentAt w b l n (i + 2 * n) = segmentAt w b l n i := by
  unfold segmentAt
  rw [length_segmentsOnce w b l n hn, Nat.add_mod_right]

/-! ## The countdown task, as a direct embedding of its loop

`countdown` (pomo.rs lines 341–370) with neither pause nor cancellation
ever observed reduces to

    let mut elapsed_total = Duration::ZERO;
    while elapsed_total < duration {
        tx_remaining.send(duration - elapsed_total)?;
        interval.tick().await;
        elapsed_total += tick_rate;
    }

`countdownTraceFrom D T e` is the list of values sent on `tx_remaining`
by that loop started at `elapsed_total = e`, durations in milliseconds.
The `0 < T` guard makes the recursion well founded; the source fixes
`T = tickRate = 100`. -/

/-- `tick_rate = Duration::from_millis(100)`. -/
def tickRate : Nat := 100

/-- Values sent by the unpaused, uncancelled `countdown` loop from
`elapsed_total = e`. -/
def countdownTraceFrom (D T e : Nat) : List Nat :=
  if _h : 0 < T ∧ e < D then
    (D - e) :: countdownTraceFrom D T (e + T)
  else
    []
termination_by D - e
decreasing_by omega

/-- Values sent by the unpaused, uncancelled `countdown` loop over a
segment of `D` milliseconds with tick period `T`. -/
def countdownTrace (D T : Nat) : List Nat :=
  countdownTraceFrom D T 0

lemma countdownTraceFrom_of_lt (D T e : Nat) (hT : 0 < T) (he : e < D) :
    countdownTraceFrom D T e = (D - e) :: countdownTraceFrom D T (e + T) := by
  rw [countdownTraceFrom]
  rw [dif_pos ⟨hT, he⟩]

lemma countdownTraceFrom_of_ge (D T e : Nat) (he : D ≤ e) :
    countdownTraceFrom D T e = [] := by
  rw [countdownTraceFrom]
  rw [dif_neg (by omega)]

lemma length_countdownTraceFrom (T : Nat) (hT : 0 < T) (D : Nat) :
    ∀ e, (countdownTraceFrom D T e).length = (D - e + T - 1) / T := by
  have main : ∀ r e, D - e = r → (countdownTraceFrom D T e).length
      = (D - e + T - 1) / T := by
    intro r
    induction r using Nat.strong_induction_on with
    | _ r ih =>
        intro e hr
        by_cases he : e < D
        · rw [countdownTraceFrom_of_lt D T e hT he, List.length_cons]
          rw [ih (D - (e + T)) (by omega) (e + T) rfl]
          rcases Nat.lt_or_ge (D - e) T with hcase | hcase
          · have h1 : D - (e + T) = 0 := by omega
            have h2 : D - e + T - 1 = (D - e - 1) + T := by omega
            rw [h1, h2, Nat.add_div_right _ hT, Nat.zero_add]
            have h3 : (D - e - 1) / T = 0 := Nat.div_eq_of_lt (by omega)
            have h4 : (T - 1) / T = 0 := Nat.div_eq_of_lt (by omega)
            omega
          · have h2 : D - e + T - 1 = (D - (e + T) + T - 1) + T := by omega
            rw [h2, Nat.add_div_right _ hT]
        · rw [countdownTraceFrom_of_ge D T e (by omega), List.length_nil]
          have h1 : D - e = 0 := by omega
          rw [h1, Nat.zero_add]
          exact (Nat.div_eq_of_lt (by omega)).symm
  intro e
  exact main (D - e) e rfl

/-- The number of values `countdown` sends with no pause and no cancel is
`⌈D/T⌉`, written `(D + T - 1) / T` over `Nat`. -/
lemma length_countdownTrace (D T : Nat) (hT : 0 < T) :
    (countdownTrace D T).length = (D + T - 1) / T := by
  rw [countdownTrace, length_countdownTraceFrom T hT D 0, Nat.sub_zero]

lemma countdownTraceFrom_pos (D T : Nat) :
    ∀ e, ∀ v ∈ countdownTraceFrom D T e, 0 < v := by
  have main : ∀ r e, D - e = r → ∀ v ∈ countdownTraceFrom D T e, 0 < v := by
    intro r
    induction r using Nat.strong_induction_on with
    | _ r ih =>
        intro e hr v hv
        by_cases hg : 0 < T ∧ e < D
        · rw [countdownTraceFrom_of_lt D T e hg.1 hg.2] at hv
          rcases List.mem_cons.mp hv with h | h
          · omega
          · exact ih (D - (e + T)) (by omega) (e + T) rfl v h
        · rw [countdownTraceFrom] at hv
          rw [dif_neg hg] at hv
          exact absurd hv (List.not_mem_nil v)
  intro e
  exact main (D - e) e rfl

lemma countdownTraceFrom_chain (D T : Nat) (hT : 0 < T) :
    ∀ e, List.Chain' (fun a b => b ≤ a) (countdownTraceFrom D T e) := by
  have main : ∀ r e, D - e = r
      → List.Chain' (fun a b => b ≤ a) (countdownTraceFrom D T e) := by
    intro r
    induction r using Nat.strong_induction_on with
    | _ r ih =>
        intro e hr
        by_cases he : e < D
        · rw [countdownTraceFrom_of_lt D T e hT he]
          refine List.chain'_cons'.mpr ⟨?_, ih (D - (e + T)) (by omega) (e + T) rfl⟩
          intro y hy
          by_cases he2 : e + T < D
          · rw [countdownTraceFrom_of_lt D T (e + T) hT he2] at hy
            simp only [List.head?_cons, Option.mem_def, Option.some.injEq] at hy
            omega
          · rw [countdownTraceFrom_of_ge D T (e + T) (by omega)] at hy
            simp at hy
        · rw [countdownTraceFrom_of_ge D T e (by omega)]
          exact List.chain'_nil
  intro e
  exact main (D - e) e rfl

lemma countdownTraceFrom_getLast (D T : Nat) (hT : 0 < T) :
    ∀ e, e < D → ∃ v, (countdownTraceFrom D T e).getLast? = some v
      ∧ 0 < v ∧ v ≤ T := by
  have main : ∀ r e, D - e = r → e < D
      → ∃ v, (countdownTraceFrom D T e).getLast? = some v ∧ 0 < v ∧ v ≤ T := by
    intro r
    induction r using Nat.strong_induction_on with
    | _ r ih =>
        intro e hr he
        rw [countdownTraceFrom_of_lt D T e hT he]
        by_cases he2 : e + T < D
        · obtain ⟨v, hv, hv0, hvT⟩ := ih (D - (e + T)) (by omega) (e + T) rfl he2
          refine ⟨v, ?_, hv0, hvT⟩
          rw [countdownTraceFrom_of_lt D T (e + T) hT he2] at hv ⊢
          rw [List.getLast?_cons_cons]
          exact hv
        · rw [countdownTraceFrom_of_ge D T (e + T) (by omega)]
          exact ⟨D - e, rfl, by omega, by omega⟩
  intro e he
  exact main (D - e) e rfl he

/-! ## The countdown task, as a small-step machine

To reason about pause, cancellation and the `watch` channel we embed the
body of the `countdown` loop (pomo.rs lines 352–368) as a step function.
One loop iteration performs, in order:

1. loop guard: if `elapsed_total >= duration`, exit (natural completion);
2. `tx_remaining.send(duration - elapsed_total)`;
3. `rx_cancel.try_recv()`: if a cancel is pending, `break`;
4. if `*rx_paused.borrow()`: wait, inside the iteration, until either a
   cancel arrives (`break`) or the pause ends, then fall through to the
   tick;
5. `interval.tick().await; elapsed_total += tick_rate`.

A step consumes one `EngineInput`, the cancel/pause signals the task
observes at its current suspension point.  `phase = pausedWait` is the
wait inside step 4; the resuming step performs the tick of step 5, so
`elapsed` advances by one tick period on resume, exactly as in the
source. -/

/-- Position of the `countdown` task inside its loop body. -/
inductive EnginePhase where
  | atTop
  | pausedWait
deriving DecidableEq, Repr

/-- State of one `countdown` task: `elapsed_total` (ms), the loop
position, and whether the task has returned. -/
structure EngineState where
  elapsed : Nat
  phase : EnginePhase
  finished : Bool
deriving DecidableEq, Repr

/-- `countdown` starts with `elapsed_total = Duration::ZERO` at the top of
its loop. -/
def initEngine : EngineState :=
  { elapsed := 0, phase := .atTop, finished := false }

/-- The signals observed by one step: whether a cancel message is pending
on `rx_cancel` and the current value of the `rx_paused` watch channel. -/
structure EngineInput where
  cancel : Bool
  paused : Bool
deriving DecidableEq, Repr

/-- One step of the `countdown` loop (duration `D`, tick period `T`, both
in ms).  Returns the successor state and the value sent on
`tx_remaining`, if any. -/
def engineStep (D T : Nat) (s : EngineState) (inp : EngineInput) :
    EngineState × Option Nat :=
  if s.finished then (s, none)
  else
    match s.phase with
    | .atTop =>
        if s.elapsed < D then
          if inp.cancel then
            ({ s with finished := true }, some (D - s.elapsed))
          else if inp.paused then
            ({ s with phase := .pausedWait }, some (D - s.elapsed))
          else
            ({ s with elapsed := s.elapsed + T }, some (D - s.elapsed))
        else
          ({ s with finished := true }, none)
    | .pausedWait =>
        if inp.cancel then ({ s with finished := true }, none)
        else if inp.paused then (s, none)
        else ({ s with elapsed := s.elapsed + T, phase := .atTop }, none)

/-- Run the engine over a list of observed inputs. -/
def engineRun (D T : Nat) (s : EngineState) : List EngineInput → EngineState
  | [] => s
  | inp :: rest => engineRun D T (engineStep D T s inp).1 rest

/-- Values sent on `tx_remaining` over a list of observed inputs. -/
def engineEmits (D T : Nat) (s : EngineState) : List EngineInput → List Nat
  | [] => []
  | inp :: rest =>
      (engineStep D T s inp).2.toList
        ++ engineEmits D T (engineStep D T s inp).1 rest

/-- The engine together with the `watch` channel it sends on.  `chan` is
the channel's current value; `Pomo::run` line 113 creates it as
`watch::channel(duration)`. -/
structure EngineSys where
  engine : EngineState
  chan : Nat
deriving DecidableEq, Repr

/-- Fresh engine and remaining channel for a segment of `D` ms. -/
def initSys (D : Nat) : EngineSys :=
  { engine := initEngine, chan := D }

/-- One step of the engine, folding its emission into the channel
(`watch` keeps only the latest value). -/
def sysStep (D T : Nat) (s : EngineSys) (inp : EngineInput) : EngineSys :=
  { engine := (engineStep D T s.engine inp).1
    chan := ((engineStep D T s.engine inp).2).getD s.chan }

/-- Run the engine–channel system over a list of observed inputs. -/
def sysRun (D T : Nat) (s : EngineSys) : List EngineInput → EngineSys
  | [] => s
  | inp :: rest => sysRun D T (sysStep D T s inp) rest

lemma engineStep_finished (D T : Nat) (s : EngineState) (inp : EngineInput)
    (hs : s.finished = true) : engineStep D T s inp = (s, none) := by
  unfold engineStep
  rw [hs]
  rfl

lemma engineEmits_finished (D T : Nat) (s : EngineState)
    (hs : s.finished = true) :
    ∀ inps, engineEmits D T s inps = [] := by
  intro inps
  induction inps generalizing s with
  | nil => rfl
  | cons inp rest ih =>
      unfold engineEmits
      rw [engineStep_finished D T s inp hs]
      simpa using ih s hs

lemma engineStep_cancel_finished (D T : Nat) (s : EngineState)
    (inp : EngineInput) (hc : inp.cancel = true) :
    (engineStep D T s inp).1.finished = true := by
  unfold engineStep
  by_cases hs : s.finished
  · rw [if_pos hs]
    exact hs
  · rw [if_neg hs]
    cases hph : s.phase
    · by_cases he : s.elapsed < D
      · simp [he, hc]
      · simp [he]
    · simp [hc]

lemma engineStep_emit_le (D T : Nat) (s : EngineState) (inp : EngineInput)
    (v : Nat) (hv : (engineStep D T s inp).2 = some v) : v ≤ D := by
  unfold engineStep at hv
  by_cases hs : s.finished
  · rw [if_pos hs] at hv
    exact absurd hv (by simp)
  · rw [if_neg hs] at hv
    cases hph : s.phase <;> rw [hph] at hv
    · by_cases he : s.elapsed < D
      · rcases hcan : inp.cancel <;> rcases hp : inp.paused <;>
          simp [he, hcan, hp] at hv <;> omega
      · simp [he] at hv
    · rcases hcan : inp.cancel <;> rcases hp : inp.paused <;>
        simp [hcan, hp] at hv

lemma sysRun_chan_le (D T : Nat) :
    ∀ inps (s : EngineSys), s.chan ≤ D → (sysRun D T s inps).chan ≤ D := by
  intro inps
  induction inps with
  | nil => intro s hs; exact hs
  | cons inp rest ih =>
      intro s hs
      unfold sysRun
      refine ih (sysStep D T s inp) ?_
      unfold sysStep
      rcases hemit : (engineStep D T s.engine inp).2 with _ | v
      · simpa using hs
      · simpa using engineStep_emit_le D T s.engine inp v hemit

/-! ## The input router

Embedding of `impl TryFrom<Event> for PomoInput` (pomo.rs lines 177–187)
and `impl TryFrom<KeyEvent> for PomoInput` (lines 189–224).  `Option`
stands for `Result<_, ()>`; `none` is `Err(())`, a silently dropped
event.  The `KeyCode` and `KeyModifiers` types mirror the crossterm enum
and bitflags the source matches on. -/

/-- `enum PomoInput { Help, Pause, Skip, Quit }`. -/
inductive PomoInput where
  | Help
  | Pause
  | Skip
  | Quit
deriving DecidableEq, Repr

/-- crossterm `KeyCode`. -/
inductive KeyCode where
  | Backspace
  | Enter
  | Left
  | Right
  | Up
  | Down
  | Home
  | End
  | PageUp
  | PageDown
  | Tab
  | BackTab
  | Delete
  | Insert
  | F (n : Nat)
  | Char (c : Char)
  | Null
  | Esc
deriving DecidableEq, Repr

/-- crossterm `KeyModifiers` bitflags: SHIFT, CONTROL, ALT. -/
structure KeyModifiers where
  shift : Bool
  control : Bool
  alt : Bool
deriving DecidableEq, Repr

/-- `KeyModifiers::NONE`. -/
def KeyModifiers.NONE : KeyModifiers :=
  { shift := false, control := false, alt := false }

/-- `KeyModifiers::CONTROL`. -/
def KeyModifiers.CONTROL : KeyModifiers :=
  { shift := false, control := true, alt := false }

/-- crossterm `KeyEvent { code, modifiers }`. -/
structure KeyEvent where
  code : KeyCode
  modifiers : KeyModifiers
deriving DecidableEq, Repr

/-- crossterm `Event`: key, mouse (payload abstracted) or resize. -/
inductive Event where
  | Key (k : KeyEvent)
  | Mouse (m : Nat)
  | Resize (w h : Nat)
deriving DecidableEq, Repr

/-- `impl TryFrom<KeyEvent> for PomoInput`, arms in source order.  A
pattern `KeyEvent { code, .. }` matches any modifiers; the `'c'`, `'h'`,
`'q'`, `'s'` arms pin `modifiers` to `CONTROL` resp. `NONE` exactly. -/
def pomoInputOfKeyEvent (k : KeyEvent) : Option PomoInput :=
  match k.code with
  | .Esc => some .Quit
  | .Char c =>
      if c = ' ' then some .Pause
      else if c = '?' then some .Help
      else if c = 'c' ∧ k.modifiers = KeyModifiers.CONTROL then some .Quit
      else if c = 'h' ∧ k.modifiers = KeyModifiers.NONE then some .Help
      else if c = 'q' ∧ k.modifiers = KeyModifiers.NONE then some .Quit
      else if c = 's' ∧ k.modifiers = KeyModifiers.NONE then some .Skip
      else none
  | _ => none

/-- `impl TryFrom<Event> for PomoInput`: key events delegate, mouse and
resize events are `Err(())`. -/
def pomoInputOfEvent : Event → Option PomoInput
  | .Key k => pomoInputOfKeyEvent k
  | .Mouse _ => none
  | .Resize _ _ => none

/-- The input mapping as §4.3 of the spec words it: Help = `h` (no
modifier) or `?`; Pause = spacebar; Skip = `s` (no modifier); Quit =
`Escape`, `q` (no modifier), or Control+`c`; everything else, and every
non-keyboard event, is `None`. -/
def specControlAction : Event → Option PomoInput
  | .Key k =>
      match k.code with
      | .Esc => some .Quit
      | .Char c =>
          if (c = 'h' ∧ k.modifiers = KeyModifiers.NONE) ∨ c = '?' then
            some .Help
          else if c = ' ' then some .Pause
          else if c = 's' ∧ k.modifiers = KeyModifiers.NONE then some .Skip
          else if (c = 'q' ∧ k.modifiers = KeyModifiers.NONE)
              ∨ (c = 'c' ∧ k.modifiers = KeyModifiers.CONTROL) then
            some .Quit
          else none
      | _ => none
  | .Mouse _ => none
  | .Resize _ _ => none

/-! ## The session controller

Embedding of the per-event handling in `Pomo::run` (lines 111–161).  Each
iteration of the `'outer` loop owns: the segment index `i`, `is_paused`
(reset to `false` per segment, and mirrored on the `tx_paused` watch
channel), `show_help` (persists across segments), and the
engine–remaining-channel pair for the current segment. -/

/-- Controller state for one live segment of `Pomo::run`. -/
structure SessionState where
  segIdx : Nat
  isPaused : Bool
  showHelp : Bool
  pausedChan : Bool
  engine : EngineSys
deriving DecidableEq, Repr

/-- Entry into iteration `idx` of the `'outer` loop: fresh
`watch::channel(duration)`, `is_paused = false`, fresh paused channel and
a fresh engine; `show_help` carries over. -/
def startSegment (w b l n idx : Nat) (showHelp : Bool) : SessionState :=
  { segIdx := idx
    isPaused := false
    showHelp := showHelp
    pausedChan := false
    engine := initSys (segmentAt w b l n idx).durationMs }

/-- Handling of one decoded `PomoInput` (pomo.rs lines 139–155).
`none` is `Quit` (`break 'outer`).  The second component records whether
a message was sent on the current engine's cancel channel
(`tx_cancel.try_send(())`, sent only by `Skip`). -/
def handlePomoInput (w b l n : Nat) (st : SessionState) :
    PomoInput → Option (SessionState × Bool)
  | .Help => some ({ st with showHelp := !st.showHelp }, false)
  | .Pause =>
      some ({ st with isPaused := !st.isPaused, pausedChan := !st.isPaused },
        false)
  | .Skip => some (startSegment w b l n (st.segIdx + 1) st.showHelp, true)
  | .Quit => none

/-! ## The boundary layer

The `Pomo` clap struct (pomo.rs lines 57–95) declares `time`, `break_`,
`long_break` and `n_pomos` as `u64` options with no further validator, so
the boundary accepts exactly the integers representable as `u64`:
negative values fail to parse, zero is accepted. -/

/-- Parsing one integer argument into a `u64` field: accepted iff it is
in `[0, 2^64)`. -/
def parseU64 (x : Int) : Option Nat :=
  if 0 ≤ x ∧ x < 2 ^ 64 then some x.toNat else none

/-- Parsing a whole `pomo` configuration: all four `u64` fields. -/
def parsePomoConfig (t b l n : Int) : Option (Nat × Nat × Nat × Nat) :=
  match parseU64 t, parseU64 b, parseU64 l, parseU64 n with
  | some t', some b', some l', some n' => some (t', b', l', n')
  | _, _, _, _ => none

/-! ## Supporting lemmas for the claims -/

lemma segmentAt_eq_of_lt (w b l n i : Nat) (hn : 0 < n) (hi : i < 2 * n) :
    segmentAt w b l n i
      = if i = 2 * n - 1 then PomoSegment.LongBreak l
        else if i % 2 = 0 then PomoSegment.Work w
        else PomoSegment.ShortBreak b := by
  unfold segmentAt
  rw [length_segmentsOnce w b l n hn, Nat.mod_eq_of_lt hi]
  exact getD_segmentsOnce w b l _ n i hn hi

lemma engineStep_paused (D T : Nat) (s : EngineState) (inp : EngineInput)
    (hph : s.phase = EnginePhase.pausedWait) (hfin : s.finished = false)
    (hp : inp.paused = true) (hc : inp.cancel = false) :
    engineStep D T s inp = (s, none) := by
  unfold engineStep
  rw [hfin, hph, hc, hp]
  rfl

lemma engineEmits_le (D T : Nat) :
    ∀ inps (s : EngineState), ∀ v ∈ engineEmits D T s inps, v ≤ D := by
  intro inps
  induction inps with
  | nil => intro s v hv; exact absurd hv (List.not_mem_nil v)
  | cons inp rest ih =>
      intro s v hv
      unfold engineEmits at hv
      rcases List.mem_append.mp hv with h | h
      · rcases hemit : (engineStep D T s inp).2 with _ | u
        · rw [hemit] at h
          exact absurd h (List.not_mem_nil v)
        · rw [hemit] at h
          simp only [Option.toList_some, List.mem_singleton] at h
          subst h
          exact engineStep_emit_le D T s inp v hemit
      · exact ih (engineStep D T s inp).1 v h

/-! ## Claims -/

/-- C1: for every positive `work`, `break`, `long_break`,
`pomos_per_cycle`, the generated segment sequence is the cycle
`[Work, ShortBreak]` repeated `pomos_per_cycle` times with the trailing
`ShortBreak` omitted, followed by one `LongBreak`, repeated forever with
period `2 * pomos_per_cycle`; in particular for
`time = 25, break = 5, n_pomos = 3` the first six segments are
Work, ShortBreak, Work, ShortBreak, Work, LongBreak and the period is 6. -/
theorem segment_cycle_matches_spec (w b l n : Nat)
    (hw : 0 < w) (hb : 0 < b) (hl : 0 < l) (hn : 0 < n) :
    segmentsOnce w b l n = specCycle w b l n
    ∧ (segmentsOnce w b l n).length = 2 * n
    ∧ (∀ i, segmentAt w b l n (i + 2 * n) = segmentAt w b l n i)
    ∧ (List.range 6).map (segmentAt 25 5 15 3)
        = [PomoSegment.Work 25, PomoSegment.ShortBreak 5,
           PomoSegment.Work 25, PomoSegment.ShortBreak 5,
           PomoSegment.Work 25, PomoSegment.LongBreak 15]
    ∧ (segmentsOnce 25 5 15 3).length = 6 := by
  refine ⟨segmentsOnce_eq_specCycle w b l n, length_segmentsOnce w b l n hn,
    fun i => segmentAt_period w b l n i hn, by decide, by decide⟩

/-- C1 witness: the theorem applied at `(25, 5, 15, 3)`. -/
theorem segment_cycle_matches_spec_witness :
    (0 : Nat) < 25 ∧ (0 : Nat) < 5 ∧ (0 : Nat) < 15 ∧ (0 : Nat) < 3
    ∧ (segmentsOnce 25 5 15 3 = specCycle 25 5 15 3
       ∧ (segmentsOnce 25 5 15 3).length = 2 * 3
       ∧ (∀ i, segmentAt 25 5 15 3 (i + 2 * 3) = segmentAt 25 5 15 3 i)
       ∧ (List.range 6).map (segmentAt 25 5 15 3)
           = [PomoSegment.Work 25, PomoSegment.ShortBreak 5,
              PomoSegment.Work 25, PomoSegment.ShortBreak 5,
              PomoSegment.Work 25, PomoSegment.LongBreak 15]
       ∧ (segmentsOnce 25 5 15 3).length = 6) :=
  ⟨by decide, by decide, by decide, by decide,
    segment_cycle_matches_spec 25 5 15 3 (by decide) (by decide) (by decide)
      (by decide)⟩

/-- C2 counterexample: with `w = b = l = 1`, `n = 1` the element at index
`2 * n = 2` is `Work`, not `LongBreak`, and the sequence does not repeat
with period `2 * n + 1 = 3`: the segment at index 0 differs from the
segment at index 3.  The one-pass cycle has length `2 * n`, not
`2 * n + 1`. -/
theorem segment_sequence_period_claim_false :
    segmentAt 1 1 1 1 (2 * 1) ≠ PomoSegment.LongBreak 1
    ∧ segmentAt 1 1 1 1 0 ≠ segmentAt 1 1 1 1 (0 + (2 * 1 + 1)) := by
  decide

/-- C2 amended: for all positive `w, b, l, n`, the first `2n - 1` elements
alternate `Work(w), ShortBreak(b)` (so `Work` at even indices below
`2n - 1` and `ShortBreak` at odd indices below `2n - 1`, `n` Works and
`n - 1` ShortBreaks), the element at index `2n - 1` is `LongBreak(l)`,
and the sequence at index `i` equals the sequence at index `i + 2n` for
every `i`. -/
theorem segment_sequence_period_amended (w b l n : Nat)
    (hw : 0 < w) (hb : 0 < b) (hl : 0 < l) (hn : 0 < n) :
    (∀ k, k < n → segmentAt w b l n (2 * k) = PomoSegment.Work w)
    ∧ (∀ k, k + 1 < n → segmentAt w b l n (2 * k + 1) = PomoSegment.ShortBreak b)
    ∧ segmentAt w b l n (2 * n - 1) = PomoSegment.LongBreak l
    ∧ (∀ i, segmentAt w b l n (i + 2 * n) = segmentAt w b l n i) := by
  refine ⟨?_, ?_, ?_, fun i => segmentAt_period w b l n i hn⟩
  · intro k hk
    rw [segmentAt_eq_of_lt w b l n (2 * k) hn (by omega)]
    rw [if_neg (by omega), if_pos (by omega)]
  · intro k hk
    rw [segmentAt_eq_of_lt w b l n (2 * k + 1) hn (by omega)]
    rw [if_neg (by omega), if_neg (by omega)]
  · rw [segmentAt_eq_of_lt w b l n (2 * n - 1) hn (by omega)]
    rw [if_pos rfl]

/-- C2 amended witness: the amended theorem applied at `(25, 5, 15, 3)`,
with the first clauses checked at `k = 0`. -/
theorem segment_sequence_period_amended_witness :
    (0 : Nat) < 25 ∧ (0 : Nat) < 5 ∧ (0 : Nat) < 15 ∧ (0 : Nat) < 3
    ∧ ((∀ k, k < 3 → segmentAt 25 5 15 3 (2 * k) = PomoSegment.Work 25)
       ∧ (∀ k, k + 1 < 3
            → segmentAt 25 5 15 3 (2 * k + 1) = PomoSegment.ShortBreak 5)
       ∧ segmentAt 25 5 15 3 (2 * 3 - 1) = PomoSegment.LongBreak 15
       ∧ (∀ i, segmentAt 25 5 15 3 (i + 2 * 3) = segmentAt 25 5 15 3 i)) :=
  ⟨by decide, by decide, by decide, by decide,
    segment_sequence_period_amended 25 5 15 3 (by decide) (by decide)
      (by decide) (by decide)⟩

/-- C10: with `n_pomos = 0` the core still constructs a segment sequence;
it is the single segment `LongBreak(long_break)` repeating with period 1
(the Work/ShortBreak part is empty). -/
theorem n_pomos_zero_long_break_only (t b l i : Nat) :
    segmentsOnce t b l 0 = [PomoSegment.LongBreak l]
    ∧ (segmentsOnce t b l 0).length = 1
    ∧ segmentAt t b l 0 i = PomoSegment.LongBreak l := by
  have h : segmentsOnce t b l 0 = [PomoSegment.LongBreak l] := by
    simp [segmentsOnce, List.intersperse]
  refine ⟨h, by rw [h]; rfl, ?_⟩
  unfold segmentAt
  rw [h]
  simp [Nat.mod_one]

/-- C3 counterexample: a segment of `D = 100` ms with tick period
`T = 100` ms, never paused and never cancelled.  The engine emits exactly
`⌈D/T⌉ = 1` value, namely 100; the last value it sends before completing
is 100, not 0.  (`countdown` sends `duration - elapsed_total` only while
`elapsed_total < duration`, so 0 is never sent.) -/
theorem countdown_last_value_claim_false :
    countdownTrace 100 100 = [100]
    ∧ (countdownTrace 100 100).getLast? = some 100
    ∧ (countdownTrace 100 100).getLast? ≠ some 0 := by
  have h : countdownTrace 100 100 = [100] := by
    simp [countdownTrace, countdownTraceFrom]
  refine ⟨h, by rw [h]; rfl, by rw [h]; decide⟩

/-- C3 amended: for a countdown over `D` ms with tick period `T` ms
(`D, T > 0`), with no pause and no cancel, the engine emits exactly
`⌈D/T⌉` remaining-time values before completing and they are
non-increasing; but every emitted value is positive, and the last value
observed before completion is not 0: it lies in `(0, T]`. -/
theorem countdown_trace_amended (D T : Nat) (hT : 0 < T) (hD : 0 < D) :
    (countdownTrace D T).length = (D + T - 1) / T
    ∧ List.Chain' (fun a b => b ≤ a) (countdownTrace D T)
    ∧ (∀ v ∈ countdownTrace D T, 0 < v)
    ∧ (∃ v, (countdownTrace D T).getLast? = some v ∧ 0 < v ∧ v ≤ T) :=
  ⟨length_countdownTrace D T hT, countdownTraceFrom_chain D T hT 0,
    countdownTraceFrom_pos D T 0, countdownTraceFrom_getLast D T hT 0 hD⟩

/-- C3 amended witness: the amended theorem applied at
`D = 250, T = 100`, where the trace is `[250, 150, 50]`. -/
theorem countdown_trace_amended_witness :
    (0 : Nat) < 100 ∧ (0 : Nat) < 250
    ∧ ((countdownTrace 250 100).length = (250 + 100 - 1) / 100
       ∧ List.Chain' (fun a b => b ≤ a) (countdownTrace 250 100)
       ∧ (∀ v ∈ countdownTrace 250 100, 0 < v)
       ∧ (∃ v, (countdownTrace 250 100).getLast? = some v ∧ 0 < v ∧ v ≤ 100)) :=
  ⟨by decide, by decide,
    countdown_trace_amended 250 100 (by decide) (by decide)⟩

/-- C4 counterexample: the configuration
`time = 25, break = 5, long_break = 15, n_pomos = 0` has a non-positive
count parameter, yet every field parses at the boundary (the `u64` clap
fields carry no positivity validator), and the core constructs its
segment sequence from it. -/
theorem boundary_accepts_zero_count :
    parsePomoConfig 25 5 15 0 = some (25, 5, 15, 0)
    ∧ parseU64 0 = some 0
    ∧ segmentsOnce 25 5 15 0 = [PomoSegment.LongBreak 15] := by
  refine ⟨?_, ?_, ?_⟩ <;> decide

/-- C4 amended: the boundary rejects exactly the values a `u64` cannot
represent — in particular every negative parameter — but it performs no
positivity check: zero parses successfully and the core is constructed
with it (with `n_pomos = 0` the core builds the one-segment
`[LongBreak]` sequence). -/
theorem boundary_rejects_negative (x : Int) (hx : x < 0) :
    parseU64 x = none
    ∧ parseU64 0 = some 0
    ∧ segmentsOnce 25 5 15 0 = [PomoSegment.LongBreak 15] := by
  refine ⟨?_, by decide, by decide⟩
  unfold parseU64
  rw [if_neg (by omega)]

/-- C4 amended witness: the amended theorem applied at `x = -1`. -/
theorem boundary_rejects_negative_witness :
    (-1 : Int) < 0
    ∧ (parseU64 (-1) = none
       ∧ parseU64 0 = some 0
       ∧ segmentsOnce 25 5 15 0 = [PomoSegment.LongBreak 15]) :=
  ⟨by decide, boundary_rejects_negative (-1) (by decide)⟩

/-- C5: the input-to-action mapping is a pure total function on events
and agrees everywhere with the table of §4.3: `h` with no modifier or
`?` is Help, spacebar is Pause, `s` with no modifier is Skip, Escape,
`q` with no modifier or Control+`c` is Quit, and every other key and
every non-keyboard event is dropped as `none`. -/
theorem input_mapping_matches_spec :
    ∀ e : Event, pomoInputOfEvent e = specControlAction e := by
  intro e
  rcases e with ⟨⟨code, mods⟩⟩ | ⟨m⟩ | ⟨w, h⟩
  · rcases mods with ⟨s, c, a⟩
    cases code <;>
      simp only [pomoInputOfEvent, pomoInputOfKeyEvent, specControlAction] <;>
      try rfl
    rename_i ch
    by_cases h1 : ch = ' ' <;> by_cases h2 : ch = '?' <;> by_cases h3 : ch = 'c'
      <;> by_cases h4 : ch = 'h' <;> by_cases h5 : ch = 'q'
      <;> by_cases h6 : ch = 's'
      <;> cases s <;> cases c <;> cases a
      <;> simp_all [KeyModifiers.NONE, KeyModifiers.CONTROL]
  · rfl
  · rfl

/-- C6: while the countdown task is inside its pause wait, a step whose
observed signals are `paused = true`, no cancel, leaves the whole
engine–channel system unchanged: `elapsed_total` does not advance, no
value is sent on `tx_remaining`, and hence any two consecutive samples
of the remaining value taken without an intervening resume are equal. -/
theorem countdown_paused_frozen (D T : Nat) (s : EngineSys)
    (inps : List EngineInput)
    (hph : s.engine.phase = EnginePhase.pausedWait)
    (hfin : s.engine.finished = false)
    (hinps : ∀ i ∈ inps, i.paused = true ∧ i.cancel = false) :
    sysRun D T s inps = s
    ∧ (sysRun D T s inps).chan = s.chan
    ∧ (sysRun D T s inps).engine.elapsed = s.engine.elapsed
    ∧ engineEmits D T s.engine inps = [] := by
  have hrun : sysRun D T s inps = s ∧ engineEmits D T s.engine inps = [] := by
    induction inps with
    | nil => exact ⟨rfl, rfl⟩
    | cons inp rest ih =>
        have hinp := hinps inp (List.mem_cons_self inp rest)
        have hstep : engineStep D T s.engine inp = (s.engine, none) :=
          engineStep_paused D T s.engine inp hph hfin hinp.1 hinp.2
        have hsys : sysStep D T s inp = s := by
          unfold sysStep
          rw [hstep]
          rfl
        constructor
        · unfold sysRun
          rw [hsys]
          exact (ih fun i hi => hinps i (List.mem_cons_of_mem inp hi)).1
        · unfold engineEmits
          rw [hstep]
          simpa using
            (ih fun i hi => hinps i (List.mem_cons_of_mem inp hi)).2
  exact ⟨hrun.1, by rw [hrun.1], by rw [hrun.1], hrun.2⟩

/-- C6 witness: the theorem applied to a paused engine with
`elapsed = 300`, channel value 1200, over two consecutive paused steps. -/
theorem countdown_paused_frozen_witness :
    ((⟨⟨300, .pausedWait, false⟩, 1200⟩ : EngineSys).engine.phase
        = EnginePhase.pausedWait
    ∧ (⟨⟨300, .pausedWait, false⟩, 1200⟩ : EngineSys).engine.finished = false
    ∧ (∀ i ∈ [(⟨false, true⟩ : EngineInput), ⟨false, true⟩],
        i.paused = true ∧ i.cancel = false))
    ∧ (sysRun 1500 100 ⟨⟨300, .pausedWait, false⟩, 1200⟩
          [⟨false, true⟩, ⟨false, true⟩]
        = ⟨⟨300, .pausedWait, false⟩, 1200⟩
       ∧ (sysRun 1500 100 ⟨⟨300, .pausedWait, false⟩, 1200⟩
            [⟨false, true⟩, ⟨false, true⟩]).chan
          = (⟨⟨300, .pausedWait, false⟩, 1200⟩ : EngineSys).chan
       ∧ (sysRun 1500 100 ⟨⟨300, .pausedWait, false⟩, 1200⟩
            [⟨false, true⟩, ⟨false, true⟩]).engine.elapsed
          = (⟨⟨300, .pausedWait, false⟩, 1200⟩ : EngineSys).engine.elapsed
       ∧ engineEmits 1500 100 ⟨300, .pausedWait, false⟩
            [⟨false, true⟩, ⟨false, true⟩] = []) :=
  ⟨⟨rfl, rfl, by decide⟩,
    countdown_paused_frozen 1500 100 ⟨⟨300, .pausedWait, false⟩, 1200⟩
      [⟨false, true⟩, ⟨false, true⟩] rfl rfl (by decide)⟩

/-- C7: the remaining channel for a segment is created holding the
segment's full duration, and in every state the system can reach from
there — under arbitrary pause/cancel signals — the channel value stays
in `[0, duration]` (values are `Nat`, so nonnegativity is inherent), and
every value the engine ever sends is at most the duration. -/
theorem remaining_within_duration (seg : PomoSegment) (T : Nat)
    (inps : List EngineInput) :
    (initSys seg.durationMs).chan = seg.durationMs
    ∧ (sysRun seg.durationMs T (initSys seg.durationMs) inps).chan
        ≤ seg.durationMs
    ∧ (∀ v ∈ engineEmits seg.durationMs T initEngine inps,
        v ≤ seg.durationMs) :=
  ⟨rfl, sysRun_chan_le seg.durationMs T inps (initSys seg.durationMs)
      (Nat.le_refl _),
    engineEmits_le seg.durationMs T inps initEngine⟩

/-- C7 witness: the theorem applied to a 25-minute Work segment with the
100 ms tick over a three-step run. -/
theorem remaining_within_duration_witness :
    (initSys (PomoSegment.Work 25).durationMs).chan
        = (PomoSegment.Work 25).durationMs
    ∧ (sysRun (PomoSegment.Work 25).durationMs 100
          (initSys (PomoSegment.Work 25).durationMs)
          [⟨false, false⟩, ⟨false, true⟩, ⟨true, true⟩]).chan
        ≤ (PomoSegment.Work 25).durationMs
    ∧ (∀ v ∈ engineEmits (PomoSegment.Work 25).durationMs 100 initEngine
          [⟨false, false⟩, ⟨false, true⟩, ⟨true, true⟩],
        v ≤ (PomoSegment.Work 25).durationMs) :=
  remaining_within_duration (PomoSegment.Work 25) 100
    [⟨false, false⟩, ⟨false, true⟩, ⟨true, true⟩]

/-- C8: when Skip is decoded during segment `i` with the engine not yet
completed, the controller sends on the cancel channel and in the same
transition — zero further engine steps — already holds segment `i + 1`
as current, so it observes `i + 1` before the unfinished engine could
have naturally completed; and once the superseded engine observes the
cancellation it is finished and emits no value on any subsequent
inputs. -/
theorem skip_advances_and_silences (w b l n D T : Nat) (st : SessionState)
    (pausedNow : Bool) (inps : List EngineInput)
    (hfin : st.engine.engine.finished = false) :
    handlePomoInput w b l n st .Skip
        = some (startSegment w b l n (st.segIdx + 1) st.showHelp, true)
    ∧ (startSegment w b l n (st.segIdx + 1) st.showHelp).segIdx
        = st.segIdx + 1
    ∧ (engineRun D T st.engine.engine []).finished = false
    ∧ (engineStep D T st.engine.engine ⟨true, pausedNow⟩).1.finished = true
    ∧ engineEmits D T (engineStep D T st.engine.engine ⟨true, pausedNow⟩).1
        inps = [] := by
  have hdone : (engineStep D T st.engine.engine ⟨true, pausedNow⟩).1.finished
      = true :=
    engineStep_cancel_finished D T st.engine.engine ⟨true, pausedNow⟩ rfl
  exact ⟨rfl, rfl, hfin, hdone,
    engineEmits_finished D T _ hdone inps⟩

/-- C8 witness: the theorem applied to the freshly started first segment
of the `(25, 5, 15, 3)` session, cancelled while running, with one
further observed step. -/
theorem skip_advances_and_silences_witness :
    (startSegment 25 5 15 3 0 false).engine.engine.finished = false
    ∧ (handlePomoInput 25 5 15 3 (startSegment 25 5 15 3 0 false) .Skip
         = some (startSegment 25 5 15 3 (0 + 1) false, true)
       ∧ (startSegment 25 5 15 3 (0 + 1) false).segIdx = 0 + 1
       ∧ (engineRun 1500000 100 (startSegment 25 5 15 3 0 false).engine.engine
            []).finished = false
       ∧ (engineStep 1500000 100
            (startSegment 25 5 15 3 0 false).engine.engine
            ⟨true, false⟩).1.finished = true
       ∧ engineEmits 1500000 100
            (engineStep 1500000 100
              (startSegment 25 5 15 3 0 false).engine.engine
              ⟨true, false⟩).1 [⟨false, false⟩] = []) := by
  refine ⟨rfl, ?_⟩
  have h := skip_advances_and_silences 25 5 15 3 1500000 100
    (startSegment 25 5 15 3 0 false) false [⟨false, false⟩] rfl
  have hseg : (startSegment 25 5 15 3 0 false).segIdx = 0 := rfl
  have hhelp : (startSegment 25 5 15 3 0 false).showHelp = false := rfl
  rw [hseg, hhelp] at h
  exact h

/-- C9: handling a Help action only flips `show_help`: `is_paused`, the
segment index, the remaining channel and the running engine are all
unchanged, and nothing is sent on the pause or cancel channels (the
reported cancel-send flag is `false` and the pause channel value is
untouched). -/
theorem help_toggle_frame_effect (w b l n : Nat) (st : SessionState) :
    handlePomoInput w b l n st .Help
        = some ({ st with showHelp := !st.showHelp }, false)
    ∧ ({ st with showHelp := !st.showHelp } : SessionState).isPaused
        = st.isPaused
    ∧ ({ st with showHelp := !st.showHelp } : SessionState).segIdx = st.segIdx
    ∧ ({ st with showHelp := !st.showHelp } : SessionState).engine = st.engine
    ∧ ({ st with showHelp := !st.showHelp } : SessionState).pausedChan
        = st.pausedChan
    ∧ ({ st with showHelp := !st.showHelp } : SessionState).showHelp
        = !st.showHelp :=
  ⟨rfl, rfl, rfl, rfl, rfl, rfl⟩

end Kit
